import Mathlib

/-!
Shallow embedding of `src/bot.py` (dpy-voice-stalker): the record classifier
`StalkEvent.from_embed`, the interval reconstructor `process_events`, and the
duration filter used by `stalk_csv` / `stalk_plot`.

Modelling conventions:
* Strings are `List Char`; timestamps are `Int` seconds (Python `datetime`
  differences are compared through `.total_seconds()`, so integer seconds
  suffice for every comparison the code performs).
* The three compiled regexes (`joined_re`, `left_re`, `moved_re`) are embedded
  as deterministic prefix matchers.  Each quantifier in the patterns (`!?`,
  `\d+`, `\w+`) is followed by a literal character disjoint from its character
  class (`\d` is never `>` or `!`, `\w` is never `*`), so greedy maximal-munch
  matching is exactly equivalent to Python's backtracking semantics here.
  `re.match` anchors at the start only; the trailing `.` of each pattern is the
  regex wildcard (any one character except a newline), both reproduced below.
* Python's `dict` (`looking_at`) is an insertion-ordered association list:
  assigning an existing key updates it in place, assigning a fresh key appends,
  `pop` removes; `seen` is a set, modelled as a duplicate-free list.
-/

set_option autoImplicit false

namespace DpyVoiceStalker

/-- Embedding of `StalkType`: the two event kinds. -/
inductive StalkType where
  | join
  | leave
deriving DecidableEq, Repr

/-- Embedding of `StalkEvent`: user id, timestamp (seconds), event kind. -/
structure StalkEvent where
  who : Nat
  when : Int
  action : StalkType
deriving DecidableEq, Repr

/-- Embedding of `ConnectedDuration`: one presence interval. -/
structure ConnectedDuration where
  who : Nat
  joined : Int
  left : Int
deriving DecidableEq, Repr

/-- Match a literal character sequence at the head of the input, returning the
rest of the input. -/
def litP : List Char → List Char → Option (List Char)
  | [], s => some s
  | _ :: _, [] => none
  | p :: ps, c :: cs => if c = p then litP ps cs else none

/-- Greedily consume characters satisfying `p`, requiring at least one: the
`+` quantifier on a character class. -/
def takeWhile1 (p : Char → Bool) (s : List Char) : Option (List Char × List Char) :=
  if s.takeWhile p = [] then none else some (s.takeWhile p, s.dropWhile p)

/-- One arbitrary character other than a newline: the regex wildcard `.`. -/
def anyCharP : List Char → Option (List Char)
  | [] => none
  | c :: cs => if c = '\n' then none else some cs

/-- A word character, the regex `\w` (the code only ever feeds it ASCII). -/
def isWordChar (c : Char) : Bool := c.isAlphanum || c = '_'

/-- The shared mention fragment `<@!?(?P<uid>\d+)` of the three patterns:
returns the digits of the uid group and the rest of the input. -/
def mentionP (s : List Char) : Option (List Char × List Char) := do
  let r ← litP ['<', '@'] s
  let r := match r with
    | c :: rest => if c = '!' then rest else c :: rest
    | [] => []
  takeWhile1 Char.isDigit r

/-- Embedding of `joined_re`: `<@!?(?P<uid>\d+)> joined \*\*(?P<chan>\w+)\*\*.`
Returns the uid digits and the channel name. -/
def joined_re (s : List Char) : Option (List Char × List Char) := do
  let (uid, r) ← mentionP s
  let r ← litP "> joined **".data r
  let (chan, r) ← takeWhile1 isWordChar r
  let r ← litP "**".data r
  let _ ← anyCharP r
  some (uid, chan)

/-- Embedding of `left_re`: `<@!?(?P<uid>\d+)> left \*\*(?P<chan>\w+)\*\*.` -/
def left_re (s : List Char) : Option (List Char × List Char) := do
  let (uid, r) ← mentionP s
  let r ← litP "> left **".data r
  let (chan, r) ← takeWhile1 isWordChar r
  let r ← litP "**".data r
  let _ ← anyCharP r
  some (uid, chan)

/-- Embedding of `moved_re`:
`<@!?(?P<uid>\d+)> moved from \*\*(?P<from_chan>\w+)\*\* to \*\*(?P<to_chan>\w+)\*\*.`
Returns the uid digits, the origin channel and the destination channel. -/
def moved_re (s : List Char) : Option (List Char × List Char × List Char) := do
  let (uid, r) ← mentionP s
  let r ← litP "> moved from **".data r
  let (from_chan, r) ← takeWhile1 isWordChar r
  let r ← litP "** to **".data r
  let (to_chan, r) ← takeWhile1 isWordChar r
  let r ← litP "**".data r
  let _ ← anyCharP r
  some (uid, from_chan, to_chan)

/-- Python's `int` applied to the matched digit group. -/
def digitsToNat (ds : List Char) : Nat :=
  ds.foldl (fun n c => 10 * n + (c.toNat - 48)) 0

/-- Embedding of `StalkEvent.from_embed`: classify one record (optional
description text, optional timestamp) against the target channel.  `none`
models every `return None` path. -/
def from_embed (d : Option (List Char)) (ts : Option Int) (target_channel : List Char) :
    Option StalkEvent :=
  match d with
  | none => none
  | some s =>
    let matched : Option (List Char × List Char × StalkType) :=
      match joined_re s with
      | some (uid, chan) => some (uid, chan, StalkType.join)
      | none =>
        match left_re s with
        | some (uid, chan) => some (uid, chan, StalkType.leave)
        | none =>
          match moved_re s with
          | some (uid, from_chan, dest_chan) =>
            if dest_chan = target_channel then some (uid, dest_chan, StalkType.join)
            else if from_chan = target_channel then some (uid, dest_chan, StalkType.leave)
            else none
          | none => none
    match matched with
    | none => none
    | some (uid, chan, ty) =>
      if chan ≠ target_channel then none
      else
        match ts with
        | none => none
        | some t => some { who := digitsToNat uid, when := t, action := ty }

/-- Python dict assignment `looking_at[k] = v`: update an existing key in
place, otherwise append at the end (insertion order). -/
def dictInsert (m : List (Nat × Int)) (k : Nat) (v : Int) : List (Nat × Int) :=
  match m with
  | [] => [(k, v)]
  | (k', v') :: rest => if k' = k then (k, v) :: rest else (k', v') :: dictInsert rest k v

/-- Python dict `pop`: drop the entry with the given key. -/
def dictRemove (m : List (Nat × Int)) (k : Nat) : List (Nat × Int) :=
  m.filter (fun p => p.1 ≠ k)

/-- Python set `add`. -/
def insertSeen (k : Nat) (seen : List Nat) : List Nat :=
  if k ∈ seen then seen else k :: seen

/-- The scan state of `process_events`: `looking_at`, `durations`, `seen`. -/
abbrev ScanState : Type := List (Nat × Int) × List ConnectedDuration × List Nat

/-- One iteration of the event loop of `process_events`. -/
def step (start_time : Int) (st : ScanState) (evt : StalkEvent) : ScanState :=
  match st with
  | (looking_at, durations, seen) =>
    match evt.action with
    | StalkType.join =>
        (dictInsert looking_at evt.who evt.when, durations, insertSeen evt.who seen)
    | StalkType.leave =>
        match looking_at.lookup evt.who with
        | some j =>
            (dictRemove looking_at evt.who,
             durations ++ [⟨evt.who, j, evt.when⟩], insertSeen evt.who seen)
        | none =>
            if evt.who ∈ seen then (looking_at, durations, insertSeen evt.who seen)
            else (looking_at, durations ++ [⟨evt.who, start_time, evt.when⟩],
                  insertSeen evt.who seen)

/-- The closing loop of `process_events`: every still-open join is emitted up
to `end_time` unless it is more than 12 hours (43200 seconds) old. -/
def finish (looking_at : List (Nat × Int)) (end_time : Int) : List ConnectedDuration :=
  looking_at.filterMap (fun p =>
    if end_time - p.2 > 43200 then none else some ⟨p.1, p.2, end_time⟩)

/-- Embedding of `process_events`. -/
def process_events (evts : List StalkEvent) (start_time end_time : Int) :
    List ConnectedDuration :=
  match evts.foldl (step start_time) ([], [], []) with
  | (looking_at, durations, _) => durations ++ finish looking_at end_time

/-- The duration filter applied in `stalk_csv` and `stalk_plot`:
`[d for d in durations if (d.left - d.joined).total_seconds() > 600]`,
with the threshold as a parameter. -/
def filter_by_min_duration (durations : List ConnectedDuration) (min_seconds : Int) :
    List ConnectedDuration :=
  durations.filter (fun d => min_seconds < d.left - d.joined)

/-! Families of record texts.  Each one enumerates exactly the strings its
regex matches (uid a nonempty digit string, channel names nonempty strings of
word characters, `dot` the character consumed by the pattern's trailing
wildcard, `extra` unread trailing text), so theorems quantified over a family
cover every text the corresponding pattern accepts. -/

/-- The texts matched by the mention fragment `<@!?(?P<uid>\d+)`. -/
def mention (bang : Bool) (uid : List Char) : List Char :=
  '<' :: '@' :: ((if bang then ['!'] else []) ++ uid)

/-- The texts matched by `joined_re`, plus arbitrary trailing text. -/
def joinedText (bang : Bool) (uid chan : List Char) (dot : Char) (extra : List Char) :
    List Char :=
  mention bang uid ++ "> joined **".data ++ chan ++ "**".data ++ dot :: extra

/-- The texts matched by `left_re`, plus arbitrary trailing text. -/
def leftText (bang : Bool) (uid chan : List Char) (dot : Char) (extra : List Char) :
    List Char :=
  mention bang uid ++ "> left **".data ++ chan ++ "**".data ++ dot :: extra

/-- The texts matched by `moved_re`, plus arbitrary trailing text. -/
def movedText (bang : Bool) (uid from_chan to_chan : List Char) (dot : Char)
    (extra : List Char) : List Char :=
  mention bang uid ++ "> moved from **".data ++ from_chan ++ "** to **".data ++
    to_chan ++ "**".data ++ dot :: extra

/-- A well-formed uid group: nonempty, all digits. -/
abbrev ValidUid (uid : List Char) : Prop := uid ≠ [] ∧ ∀ c ∈ uid, c.isDigit = true

/-- A well-formed channel-name group: nonempty, all word characters. -/
abbrev ValidChan (chan : List Char) : Prop := chan ≠ [] ∧ ∀ c ∈ chan, isWordChar c = true

/-- The keys of `looking_at` are pairwise distinct (true of any Python dict). -/
def keysNodup (m : List (Nat × Int)) : Prop := (m.map Prod.fst).Nodup

/-- The intervals of one user among a list of intervals. -/
def userDurs (U : Nat) (ds : List ConnectedDuration) : List ConnectedDuration :=
  ds.filter (fun d => d.who = U)

/-- Two intervals do not overlap: one ends no later than the other starts. -/
def NoOverlap (a b : ConnectedDuration) : Prop :=
  a.left ≤ b.joined ∨ b.left ≤ a.joined

/-- The `looking_at` component of one `step` (a view of `step` used to state
commutation properties; see `step_decompose`). -/
def stepLooking (ev : StalkEvent) (m : List (Nat × Int)) : List (Nat × Int) :=
  match ev.action with
  | StalkType.join => dictInsert m ev.who ev.when
  | StalkType.leave =>
    match m.lookup ev.who with
    | some _ => dictRemove m ev.who
    | none => m

/-- The intervals one `step` appends to `durations` (see `step_decompose`). -/
def stepEmit (start_time : Int) (ev : StalkEvent) (m : List (Nat × Int))
    (seen : List Nat) : List ConnectedDuration :=
  match ev.action with
  | StalkType.join => []
  | StalkType.leave =>
    match m.lookup ev.who with
    | some j => [⟨ev.who, j, ev.when⟩]
    | none => if ev.who ∈ seen then [] else [⟨ev.who, start_time, ev.when⟩]

/-- Scan states that agree up to reordering of `looking_at` and `durations`
and up to membership of `seen`. -/
def StEquiv (st st' : ScanState) : Prop :=
  st.1.Perm st'.1 ∧ st.2.1.Perm st'.2.1 ∧ (∀ x, x ∈ st.2.2 ↔ x ∈ st'.2.2)

/-- C4: reconstructing the single event `Join(U, t1)` over window `[s, e]`
yields exactly `[Interval(U, t1, e)]` when `e - t1` is at most 12 hours
(43200 seconds), and yields the empty list when `e - t1` strictly exceeds
12 hours. -/
theorem single_join_keeps_or_drops (U : Nat) (t1 s e : Int) :
    (e - t1 ≤ 43200 →
      process_events [⟨U, t1, StalkType.join⟩] s e = [⟨U, t1, e⟩]) ∧
    (43200 < e - t1 →
      process_events [⟨U, t1, StalkType.join⟩] s e = []) := by
  constructor <;> intro h <;>
    simp only [process_events, List.foldl, step, dictInsert, insertSeen, finish,
      List.filterMap, List.nil_append]
  · rw [if_neg (by omega)]
  · rw [if_pos (by omega)]

/-- Witness for `single_join_keeps_or_drops`. -/
theorem single_join_keeps_or_drops_witness :
    process_events [⟨1, 0, StalkType.join⟩] 0 100 = [⟨1, 0, 100⟩] ∧
    process_events [⟨1, 0, StalkType.join⟩] 0 50000 = [] :=
  ⟨(single_join_keeps_or_drops 1 0 0 100).1 (by decide),
   (single_join_keeps_or_drops 1 0 0 50000).2 (by decide)⟩

/-- C5: a lone `Leave(U, t1)` over window `[s, e)` yields exactly
`[Interval(U, s, t1)]`; and whenever a leave event arrives while its user has
no open join but is already in the seen set, the scan step leaves the whole
state — in particular the emitted-intervals list — unchanged. -/
theorem orphan_leave_behaviour (U : Nat) (t1 s e : Int) :
    process_events [⟨U, t1, StalkType.leave⟩] s e = [⟨U, s, t1⟩] ∧
    (∀ (looking_at : List (Nat × Int)) (durations : List ConnectedDuration)
        (seen : List Nat) (evt : StalkEvent),
      evt.action = StalkType.leave →
      looking_at.lookup evt.who = none →
      evt.who ∈ seen →
      step s (looking_at, durations, seen) evt = (looking_at, durations, seen)) := by
  constructor
  · simp [process_events, step, insertSeen, finish, List.lookup]
  · intro looking_at durations seen evt ha hl hs
    simp [step, ha, hl, hs, insertSeen]

/-- Witness for `orphan_leave_behaviour`. -/
theorem orphan_leave_behaviour_witness :
    process_events [⟨1, 7, StalkType.leave⟩] 0 100 = [⟨1, 0, 7⟩] ∧
    step 0 ([], [⟨1, 0, 7⟩], [1]) ⟨1, 9, StalkType.leave⟩ = ([], [⟨1, 0, 7⟩], [1]) :=
  ⟨(orphan_leave_behaviour 1 7 0 100).1,
   (orphan_leave_behaviour 1 7 0 100).2 [] [⟨1, 0, 7⟩] [1] ⟨1, 9, StalkType.leave⟩
     rfl rfl (by decide)⟩

/-- C6: after scanning `[Join(U, t1), Join(U, t2)]` the open-join map holds
only the second timestamp `t2` (the first was overwritten without emitting an
interval), and every interval the reconstruction emits has start `t2` (and end
`e`) — none has start `t1` unless `t1 = t2`. -/
theorem double_join_overwrites (U : Nat) (t1 t2 s e : Int) :
    (List.foldl (step s) ([], [], [])
        [⟨U, t1, StalkType.join⟩, ⟨U, t2, StalkType.join⟩]).1 = [(U, t2)] ∧
    (∀ d ∈ process_events [⟨U, t1, StalkType.join⟩, ⟨U, t2, StalkType.join⟩] s e,
      d.joined = t2 ∧ d.left = e) := by
  constructor
  · simp [step, dictInsert, insertSeen]
  · intro d hd
    simp only [process_events, List.foldl, step, dictInsert, insertSeen, finish,
      List.filterMap, List.nil_append] at hd
    by_cases hc : e - t2 > 43200
    · rw [if_pos hc] at hd
      simp at hd
    · rw [if_neg hc] at hd
      simp at hd
      subst hd
      exact ⟨rfl, rfl⟩

/-- Witness for `double_join_overwrites`. -/
theorem double_join_overwrites_witness :
    (List.foldl (step 0) ([], [], [])
        [⟨1, 3, StalkType.join⟩, ⟨1, 7, StalkType.join⟩]).1 = [(1, 7)] ∧
    ConnectedDuration.joined ⟨1, 7, 100⟩ = 7 ∧ ConnectedDuration.left ⟨1, 7, 100⟩ = 100 :=
  ⟨(double_join_overwrites 1 3 7 0 100).1,
   (double_join_overwrites 1 3 7 0 100).2 ⟨1, 7, 100⟩ (by decide)⟩

/-- C7: `[Join(U, t1), Leave(U, t2)]` with `t1 < t2` reconstructs to exactly
the single interval `Interval(U, t1, t2)`. -/
theorem join_leave_pairs_up (U : Nat) (t1 t2 s e : Int) (h : t1 < t2) :
    process_events [⟨U, t1, StalkType.join⟩, ⟨U, t2, StalkType.leave⟩] s e =
      [⟨U, t1, t2⟩] := by
  simp [process_events, step, dictInsert, dictRemove, insertSeen, finish, List.lookup]

/-- Witness for `join_leave_pairs_up`. -/
theorem join_leave_pairs_up_witness :
    process_events [⟨1, 3, StalkType.join⟩, ⟨1, 9, StalkType.leave⟩] 0 100 =
      [⟨1, 3, 9⟩] :=
  join_leave_pairs_up 1 3 9 0 100 (by decide)

/-- C8: the duration filter at threshold 600 returns the subsequence of its
input (order preserved) holding exactly the intervals whose duration
strictly exceeds 600 seconds; an interval of exactly 600 seconds is removed
and one of 601 seconds is kept. -/
theorem duration_filter_strict (ds : List ConnectedDuration) :
    List.Sublist (filter_by_min_duration ds 600) ds ∧
    (∀ d : ConnectedDuration,
      (filter_by_min_duration ds 600).count d =
        if 600 < d.left - d.joined then ds.count d else 0) ∧
    filter_by_min_duration [⟨0, 0, 600⟩] 600 = [] ∧
    filter_by_min_duration [⟨0, 0, 601⟩] 600 = [⟨0, 0, 601⟩] := by
  refine ⟨List.filter_sublist _, fun d => ?_, by decide, by decide⟩
  by_cases hd : 600 < d.left - d.joined
  · rw [if_pos hd, filter_by_min_duration, List.count_filter (by simpa using hd)]
  · rw [if_neg hd, List.count_eq_zero]
    intro hmem
    rw [filter_by_min_duration, List.mem_filter] at hmem
    exact hd (by simpa using hmem.2)

/-! Evaluation lemmas for the matchers on the text families. -/

theorem takeWhile_middle (p : Char → Bool) (u : List Char) (d : Char) (r : List Char)
    (hu : ∀ c ∈ u, p c = true) (hd : p d = false) :
    (u ++ d :: r).takeWhile p = u := by
  induction u with
  | nil => simp [List.takeWhile_cons, hd]
  | cons c cs ih =>
      simp [List.takeWhile_cons, hu c (by simp),
        ih (fun x hx => hu x (by simp [hx]))]

theorem dropWhile_middle (p : Char → Bool) (u : List Char) (d : Char) (r : List Char)
    (hu : ∀ c ∈ u, p c = true) (hd : p d = false) :
    (u ++ d :: r).dropWhile p = d :: r := by
  induction u with
  | nil => simp [List.dropWhile_cons, hd]
  | cons c cs ih =>
      simp [List.dropWhile_cons, hu c (by simp),
        ih (fun x hx => hu x (by simp [hx]))]

theorem takeWhile1_middle (p : Char → Bool) (u : List Char) (d : Char) (r : List Char)
    (hne : u ≠ []) (hu : ∀ c ∈ u, p c = true) (hd : p d = false) :
    takeWhile1 p (u ++ d :: r) = some (u, d :: r) := by
  rw [takeWhile1, takeWhile_middle p u d r hu hd, dropWhile_middle p u d r hu hd,
    if_neg hne]

theorem mentionP_mention (bang : Bool) (uid r : List Char) (h : ValidUid uid) :
    mentionP (mention bang uid ++ '>' :: r) = some (uid, '>' :: r) := by
  obtain ⟨hne, hdig⟩ := h
  have hgt : Char.isDigit '>' = false := rfl
  obtain ⟨c, u, rfl⟩ := List.exists_cons_of_ne_nil hne
  have hc : c.isDigit = true := hdig c (by simp)
  have hcb : ¬(c = '!') := fun hb => absurd (hb ▸ hc) (by decide)
  have key := takeWhile1_middle Char.isDigit (c :: u) '>' r (by simp) hdig hgt
  cases bang with
  | false =>
      simp [mentionP, mention, litP, if_neg hcb]
      exact key
  | true =>
      simp [mentionP, mention, litP]
      exact key

theorem joined_re_joinedText (bang : Bool) (uid chan : List Char) (dot : Char)
    (extra : List Char) (hu : ValidUid uid) (hc : ValidChan chan) (hdot : dot ≠ '\n') :
    joined_re (joinedText bang uid chan dot extra) = some (uid, chan) := by
  obtain ⟨hcne, hcw⟩ := hc
  have e1 : ("> joined **".data : List Char) = '>' :: " joined **".data := rfl
  have e2 : ("**".data : List Char) = ['*', '*'] := rfl
  have h1 : joinedText bang uid chan dot extra =
      mention bang uid ++
        '>' :: (" joined **".data ++ (chan ++ '*' :: '*' :: dot :: extra)) := by
    simp [joinedText, e1, e2, List.append_assoc]
  rw [joined_re, h1, mentionP_mention bang uid _ hu]
  have h2 : ∀ X : List Char,
      litP "> joined **".data ('>' :: (" joined **".data ++ X)) = some X := fun _ => rfl
  have h3 : takeWhile1 isWordChar (chan ++ '*' :: '*' :: dot :: extra) =
      some (chan, '*' :: '*' :: dot :: extra) :=
    takeWhile1_middle _ _ _ _ hcne hcw rfl
  have h5 : anyCharP (dot :: extra) = some extra := by simp [anyCharP, hdot]
  simp [litP, h3, h5]

theorem left_re_leftText (bang : Bool) (uid chan : List Char) (dot : Char)
    (extra : List Char) (hu : ValidUid uid) (hc : ValidChan chan) (hdot : dot ≠ '\n') :
    left_re (leftText bang uid chan dot extra) = some (uid, chan) := by
  obtain ⟨hcne, hcw⟩ := hc
  have e1 : ("> left **".data : List Char) = '>' :: " left **".data := rfl
  have e2 : ("**".data : List Char) = ['*', '*'] := rfl
  have h1 : leftText bang uid chan dot extra =
      mention bang uid ++
        '>' :: (" left **".data ++ (chan ++ '*' :: '*' :: dot :: extra)) := by
    simp [leftText, e1, e2, List.append_assoc]
  rw [left_re, h1, mentionP_mention bang uid _ hu]
  have h2 : ∀ X : List Char,
      litP "> left **".data ('>' :: (" left **".data ++ X)) = some X := fun _ => rfl
  have h3 : takeWhile1 isWordChar (chan ++ '*' :: '*' :: dot :: extra) =
      some (chan, '*' :: '*' :: dot :: extra) :=
    takeWhile1_middle _ _ _ _ hcne hcw rfl
  have h5 : anyCharP (dot :: extra) = some extra := by simp [anyCharP, hdot]
  simp [litP, h3, h5]

theorem moved_re_movedText (bang : Bool) (uid from_chan to_chan : List Char) (dot : Char)
    (extra : List Char) (hu : ValidUid uid) (hf : ValidChan from_chan)
    (ht : ValidChan to_chan) (hdot : dot ≠ '\n') :
    moved_re (movedText bang uid from_chan to_chan dot extra) =
      some (uid, from_chan, to_chan) := by
  obtain ⟨hfne, hfw⟩ := hf
  obtain ⟨htne, htw⟩ := ht
  have e1 : ("> moved from **".data : List Char) = '>' :: " moved from **".data := rfl
  have e2 : ("**".data : List Char) = ['*', '*'] := rfl
  have e3 : ("** to **".data : List Char) = '*' :: "* to **".data := rfl
  have h1 : movedText bang uid from_chan to_chan dot extra =
      mention bang uid ++
        '>' :: (" moved from **".data ++
          (from_chan ++
            '*' :: ("* to **".data ++ (to_chan ++ '*' :: '*' :: dot :: extra)))) := by
    simp [movedText, e1, e2, e3, List.append_assoc]
  rw [moved_re, h1, mentionP_mention bang uid _ hu]
  have h2 : ∀ X : List Char,
      litP "> moved from **".data ('>' :: (" moved from **".data ++ X)) = some X :=
    fun _ => rfl
  have h3 : takeWhile1 isWordChar
      (from_chan ++ '*' :: '*' :: ' ' :: 't' :: 'o' :: ' ' :: '*' :: '*' ::
        (to_chan ++ '*' :: '*' :: dot :: extra)) =
      some (from_chan, '*' :: '*' :: ' ' :: 't' :: 'o' :: ' ' :: '*' :: '*' ::
        (to_chan ++ '*' :: '*' :: dot :: extra)) :=
    takeWhile1_middle _ _ _ _ hfne hfw rfl
  have h5 : takeWhile1 isWordChar (to_chan ++ '*' :: '*' :: dot :: extra) =
      some (to_chan, '*' :: '*' :: dot :: extra) :=
    takeWhile1_middle _ _ _ _ htne htw rfl
  have h7 : anyCharP (dot :: extra) = some extra := by simp [anyCharP, hdot]
  simp [litP, h3, h5, h7]

theorem joined_re_leftText (bang : Bool) (uid chan : List Char) (dot : Char)
    (extra : List Char) (hu : ValidUid uid) :
    joined_re (leftText bang uid chan dot extra) = none := by
  have e1 : ("> left **".data : List Char) = '>' :: " left **".data := rfl
  have e2 : ("**".data : List Char) = ['*', '*'] := rfl
  have h1 : leftText bang uid chan dot extra =
      mention bang uid ++
        '>' :: (" left **".data ++ (chan ++ '*' :: '*' :: dot :: extra)) := by
    simp [leftText, e1, e2, List.append_assoc]
  rw [joined_re, h1, mentionP_mention bang uid _ hu]
  have h2 : ∀ X : List Char,
      litP "> joined **".data ('>' :: (" left **".data ++ X)) = none := fun _ => rfl
  simp [litP]

theorem joined_re_movedText (bang : Bool) (uid from_chan to_chan : List Char) (dot : Char)
    (extra : List Char) (hu : ValidUid uid) :
    joined_re (movedText bang uid from_chan to_chan dot extra) = none := by
  have e1 : ("> moved from **".data : List Char) = '>' :: " moved from **".data := rfl
  have e2 : ("**".data : List Char) = ['*', '*'] := rfl
  have e3 : ("** to **".data : List Char) = '*' :: "* to **".data := rfl
  have h1 : movedText bang uid from_chan to_chan dot extra =
      mention bang uid ++
        '>' :: (" moved from **".data ++
          (from_chan ++
            '*' :: ("* to **".data ++ (to_chan ++ '*' :: '*' :: dot :: extra)))) := by
    simp [movedText, e1, e2, e3, List.append_assoc]
  rw [joined_re, h1, mentionP_mention bang uid _ hu]
  have h2 : ∀ X : List Char,
      litP "> joined **".data ('>' :: (" moved from **".data ++ X)) = none := fun _ => rfl
  simp [litP]

theorem left_re_movedText (bang : Bool) (uid from_chan to_chan : List Char) (dot : Char)
    (extra : List Char) (hu : ValidUid uid) :
    left_re (movedText bang uid from_chan to_chan dot extra) = none := by
  have e1 : ("> moved from **".data : List Char) = '>' :: " moved from **".data := rfl
  have e2 : ("**".data : List Char) = ['*', '*'] := rfl
  have e3 : ("** to **".data : List Char) = '*' :: "* to **".data := rfl
  have h1 : movedText bang uid from_chan to_chan dot extra =
      mention bang uid ++
        '>' :: (" moved from **".data ++
          (from_chan ++
            '*' :: ("* to **".data ++ (to_chan ++ '*' :: '*' :: dot :: extra)))) := by
    simp [movedText, e1, e2, e3, List.append_assoc]
  rw [left_re, h1, mentionP_mention bang uid _ hu]
  have h2 : ∀ X : List Char,
      litP "> left **".data ('>' :: (" moved from **".data ++ X)) = none := fun _ => rfl
  simp [litP]

/-- Full evaluation of the classifier on any join-record text. -/
theorem from_embed_joinedText (bang : Bool) (uid chan : List Char) (dot : Char)
    (extra : List Char) (ts : Option Int) (target : List Char)
    (hu : ValidUid uid) (hc : ValidChan chan) (hdot : dot ≠ '\n') :
    from_embed (some (joinedText bang uid chan dot extra)) ts target =
      if chan = target then
        ts.map (fun t => { who := digitsToNat uid, when := t, action := StalkType.join })
      else none := by
  have hj := joined_re_joinedText bang uid chan dot extra hu hc hdot
  cases ts <;> simp only [from_embed, hj] <;>
    by_cases hct : chan = target <;> simp [hct]

/-- Full evaluation of the classifier on any leave-record text. -/
theorem from_embed_leftText (bang : Bool) (uid chan : List Char) (dot : Char)
    (extra : List Char) (ts : Option Int) (target : List Char)
    (hu : ValidUid uid) (hc : ValidChan chan) (hdot : dot ≠ '\n') :
    from_embed (some (leftText bang uid chan dot extra)) ts target =
      if chan = target then
        ts.map (fun t => { who := digitsToNat uid, when := t, action := StalkType.leave })
      else none := by
  have hj := joined_re_leftText bang uid chan dot extra hu
  have hl := left_re_leftText bang uid chan dot extra hu hc hdot
  cases ts <;> simp only [from_embed, hj, hl] <;>
    by_cases hct : chan = target <;> simp [hct]

/-- Full evaluation of the classifier on any move-record text: only the
destination channel is ever compared with the target, both in the branch
choice that matters and in the post-match filter. -/
theorem from_embed_movedText (bang : Bool) (uid from_chan to_chan : List Char)
    (dot : Char) (extra : List Char) (ts : Option Int) (target : List Char)
    (hu : ValidUid uid) (hf : ValidChan from_chan) (ht : ValidChan to_chan)
    (hdot : dot ≠ '\n') :
    from_embed (some (movedText bang uid from_chan to_chan dot extra)) ts target =
      if to_chan = target then
        ts.map (fun t => { who := digitsToNat uid, when := t, action := StalkType.join })
      else none := by
  have h1 := joined_re_movedText bang uid from_chan to_chan dot extra hu
  have h2 := left_re_movedText bang uid from_chan to_chan dot extra hu
  have h3 := moved_re_movedText bang uid from_chan to_chan dot extra hu hf ht hdot
  cases ts <;> simp only [from_embed, h1, h2, h3] <;>
    by_cases htc : to_chan = target <;> by_cases hfc : from_chan = target <;>
      simp [htc, hfc]

/-- C1 counterexample: a move out of the target channel (origin equals the
target, destination differs) classifies to no event at all — not to a
`Leave` — because the post-match filter compares the destination name. -/
theorem move_out_of_target_cex :
    from_embed (some "<@1> moved from **vc** to **other**.".data) (some 0) "vc".data =
      none := by decide

/-- C1 (amended): a move record whose destination equals the target channel
classifies as a `Join`; a move record whose origin equals the target channel
but whose destination differs yields no event (the reported channel is the
destination, so the post-match channel filter discards it). -/
theorem move_record_classification (bang : Bool) (uid A B : List Char) (dot : Char)
    (extra : List Char) (ts : Int) (target : List Char)
    (hu : ValidUid uid) (ha : ValidChan A) (hb : ValidChan B) (hdot : dot ≠ '\n') :
    (B = target →
      from_embed (some (movedText bang uid A B dot extra)) (some ts) target =
        some { who := digitsToNat uid, when := ts, action := StalkType.join }) ∧
    (A = target → B ≠ target →
      from_embed (some (movedText bang uid A B dot extra)) (some ts) target = none) := by
  rw [from_embed_movedText bang uid A B dot extra (some ts) target hu ha hb hdot]
  constructor
  · intro h
    rw [if_pos h]
    rfl
  · intro _ h
    rw [if_neg h]

/-- Witness for `move_record_classification`. -/
theorem move_record_classification_witness :
    from_embed (some (movedText false ['1'] "abc".data "vc".data '.' []))
        (some 0) "vc".data =
      some { who := 1, when := 0, action := StalkType.join } ∧
    from_embed (some (movedText false ['1'] "vc".data "other".data '.' []))
        (some 0) "vc".data = none :=
  ⟨(move_record_classification false ['1'] "abc".data "vc".data '.' [] 0 "vc".data
      (by decide) (by decide) (by decide) (by decide)).1 rfl,
   (move_record_classification false ['1'] "vc".data "other".data '.' [] 0 "vc".data
      (by decide) (by decide) (by decide) (by decide)).2 rfl (by decide)⟩

/-- C9 counterexample: the trailing `.` of the patterns is the regex wildcard,
which does not match a newline; this otherwise-valid join text with `\n` in
the wildcard position classifies to no event. -/
theorem wildcard_dot_newline_cex :
    from_embed (some "<@1> joined **vc**\n".data) (some 0) "vc".data = none := by decide

/-- C9 (amended): pattern matching is anchored only at the start of the text.
For every join/leave/move record text, the character consumed by the trailing
`.` of the pattern may be any single character other than a newline, and
arbitrary extra trailing text may follow; neither changes the classification
result. -/
theorem classification_ignores_trailing (bang : Bool) (uid chan A B : List Char)
    (dot : Char) (extra : List Char) (ts : Option Int) (target : List Char)
    (hu : ValidUid uid) (hc : ValidChan chan) (ha : ValidChan A) (hb : ValidChan B)
    (hdot : dot ≠ '\n') :
    from_embed (some (joinedText bang uid chan dot extra)) ts target =
      from_embed (some (joinedText bang uid chan '.' [])) ts target ∧
    from_embed (some (leftText bang uid chan dot extra)) ts target =
      from_embed (some (leftText bang uid chan '.' [])) ts target ∧
    from_embed (some (movedText bang uid A B dot extra)) ts target =
      from_embed (some (movedText bang uid A B '.' [])) ts target := by
  refine ⟨?_, ?_, ?_⟩
  · rw [from_embed_joinedText bang uid chan dot extra ts target hu hc hdot,
      from_embed_joinedText bang uid chan '.' [] ts target hu hc (by decide)]
  · rw [from_embed_leftText bang uid chan dot extra ts target hu hc hdot,
      from_embed_leftText bang uid chan '.' [] ts target hu hc (by decide)]
  · rw [from_embed_movedText bang uid A B dot extra ts target hu ha hb hdot,
      from_embed_movedText bang uid A B '.' [] ts target hu ha hb (by decide)]

/-- Witness for `classification_ignores_trailing`, on the concrete record
text `<@1> joined **vc**X garbage`. -/
theorem classification_ignores_trailing_witness :
    from_embed (some "<@1> joined **vc**X garbage".data) (some 0) "vc".data =
      from_embed (some "<@1> joined **vc**.".data) (some 0) "vc".data ∧
    from_embed (some "<@1> joined **vc**X garbage".data) (some 0) "vc".data =
      some { who := 1, when := 0, action := StalkType.join } :=
  ⟨(classification_ignores_trailing false ['1'] "vc".data "a".data "a".data 'X'
      " garbage".data (some 0) "vc".data (by decide) (by decide) (by decide) (by decide)
      (by decide)).1,
   by decide⟩

/-- C10: a move record whose origin and destination channel names both equal
the target channel classifies as a `Join` event — the destination check takes
precedence over the origin check. -/
theorem move_within_target_is_join (bang : Bool) (uid chan : List Char) (dot : Char)
    (extra : List Char) (ts : Int)
    (hu : ValidUid uid) (hc : ValidChan chan) (hdot : dot ≠ '\n') :
    from_embed (some (movedText bang uid chan chan dot extra)) (some ts) chan =
      some { who := digitsToNat uid, when := ts, action := StalkType.join } := by
  rw [from_embed_movedText bang uid chan chan dot extra (some ts) chan hu hc hc hdot,
    if_pos rfl]
  rfl

/-- Witness for `move_within_target_is_join`. -/
theorem move_within_target_is_join_witness :
    from_embed (some (movedText false ['1'] "vc".data "vc".data '.' []))
        (some 0) "vc".data =
      some { who := 1, when := 0, action := StalkType.join } :=
  move_within_target_is_join false ['1'] "vc".data '.' [] 0
    (by decide) (by decide) (by decide)

example :
    from_embed (some "<@!42> moved from **abc** to **vc**.".data) (some 5) "vc".data =
      some { who := 42, when := 5, action := StalkType.join } := by decide

example :
    from_embed (some "<@1> moved from **vc** to **other**.".data) (some 5) "vc".data =
      none := by decide

example :
    process_events [⟨1, 3, StalkType.join⟩, ⟨1, 9, StalkType.leave⟩] 0 100 =
      [⟨1, 3, 9⟩] := by decide

example :
    process_events [⟨1, 3, StalkType.join⟩] 0 50000 = [] := by decide

/-! Lemmas about the ordered-dict operations backing `looking_at`. -/

theorem lookup_dictInsert_self (m : List (Nat × Int)) (k : Nat) (v : Int) :
    (dictInsert m k v).lookup k = some v := by
  induction m with
  | nil => simp [dictInsert]
  | cons p rest ih =>
      obtain ⟨a, b⟩ := p
      by_cases h : a = k
      · subst h
        simp [dictInsert]
      · simp [dictInsert, h, List.lookup_cons, beq_false_of_ne (Ne.symm h), ih]

theorem lookup_dictInsert_ne (m : List (Nat × Int)) (k k' : Nat) (v : Int)
    (h : k' ≠ k) : (dictInsert m k v).lookup k' = m.lookup k' := by
  induction m with
  | nil => simp [dictInsert, List.lookup_cons, beq_false_of_ne h]
  | cons p rest ih =>
      obtain ⟨a, b⟩ := p
      by_cases ha : a = k
      · subst ha
        simp [dictInsert, List.lookup_cons, beq_false_of_ne h]
      · by_cases hka : k' = a
        · subst hka
          simp [dictInsert, ha, List.lookup_cons]
        · simp [dictInsert, ha, List.lookup_cons, beq_false_of_ne hka, ih]

theorem lookup_dictRemove_self (m : List (Nat × Int)) (k : Nat) :
    (dictRemove m k).lookup k = none := by
  rw [List.lookup_eq_none_iff]
  intro p hp
  rw [dictRemove, List.mem_filter] at hp
  have h1 : p.1 ≠ k := by simpa using hp.2
  simpa [bne_iff_ne] using Ne.symm h1

theorem lookup_dictRemove_ne (m : List (Nat × Int)) (k k' : Nat) (h : k' ≠ k) :
    (dictRemove m k).lookup k' = m.lookup k' := by
  induction m with
  | nil => rfl
  | cons p rest ih =>
      obtain ⟨a, b⟩ := p
      rw [dictRemove, List.filter_cons]
      rw [dictRemove] at ih
      simp only [decide_not] at ih
      by_cases hak : a = k
      · subst hak
        simp [List.lookup_cons, beq_false_of_ne h, ih]
      · by_cases hka : k' = a
        · subst hka
          simp [hak, List.lookup_cons]
        · simp [hak, List.lookup_cons, beq_false_of_ne hka, ih]

theorem mem_keys_dictInsert (m : List (Nat × Int)) (k : Nat) (v : Int) (x : Nat) :
    x ∈ (dictInsert m k v).map Prod.fst ↔ x = k ∨ x ∈ m.map Prod.fst := by
  induction m with
  | nil => simp [dictInsert]
  | cons p rest ih =>
      obtain ⟨a, b⟩ := p
      by_cases hak : a = k
      · subst hak
        simp [dictInsert]
      · simp only [dictInsert, if_neg hak, List.map_cons, List.mem_cons, ih]
        tauto

theorem keysNodup_dictInsert (m : List (Nat × Int)) (k : Nat) (v : Int)
    (h : keysNodup m) : keysNodup (dictInsert m k v) := by
  induction m with
  | nil => simp [dictInsert, keysNodup]
  | cons p rest ih =>
      obtain ⟨a, b⟩ := p
      rw [keysNodup, List.map_cons, List.nodup_cons] at h
      by_cases hak : a = k
      · subst hak
        simpa [dictInsert, keysNodup] using h
      · rw [keysNodup]
        simp only [dictInsert, if_neg hak, List.map_cons, List.nodup_cons]
        refine ⟨fun hmem => ?_, ih h.2⟩
        rcases (mem_keys_dictInsert rest k v a).mp hmem with rfl | hmem2
        · exact hak rfl
        · exact h.1 hmem2

theorem keysNodup_dictRemove (m : List (Nat × Int)) (k : Nat)
    (h : keysNodup m) : keysNodup (dictRemove m k) :=
  List.Nodup.sublist (List.Sublist.map Prod.fst (List.filter_sublist m)) h

theorem lookup_of_mem_of_keysNodup (m : List (Nat × Int)) (h : keysNodup m)
    (k : Nat) (v : Int) (hm : (k, v) ∈ m) : m.lookup k = some v := by
  induction m with
  | nil => cases hm
  | cons p rest ih =>
      obtain ⟨a, b⟩ := p
      rw [keysNodup, List.map_cons, List.nodup_cons] at h
      rcases List.mem_cons.mp hm with heq | hmem
      · obtain ⟨rfl, rfl⟩ := Prod.mk.injEq .. ▸ Prod.ext_iff.mp heq
        exact List.lookup_cons_self
      · by_cases hka : k = a
        · subst hka
          exact absurd (List.mem_map_of_mem Prod.fst hmem) h.1
        · rw [List.lookup_cons]
          simp only [beq_false_of_ne hka]
          exact ih h.2 hmem

/-- With distinct keys, the entries of `looking_at` carrying a fixed key `U`
form the empty list or the singleton given by `lookup`. -/
theorem filter_key_of_keysNodup (m : List (Nat × Int)) (U : Nat) (h : keysNodup m) :
    (m.filter (fun p => p.1 = U) = [] ∧ m.lookup U = none) ∨
    (∃ j, m.filter (fun p => p.1 = U) = [(U, j)] ∧ m.lookup U = some j) := by
  induction m with
  | nil => left; simp
  | cons p rest ih =>
      obtain ⟨a, b⟩ := p
      rw [keysNodup, List.map_cons, List.nodup_cons] at h
      by_cases haU : a = U
      · subst haU
        right
        refine ⟨b, ?_, by simp⟩
        have hrest : rest.filter (fun p => p.1 = a) = [] := by
          rw [List.filter_eq_nil_iff]
          intro p hp
          simp only [decide_eq_true_eq]
          intro hpa
          exact h.1 (by simpa [hpa] using List.mem_map_of_mem Prod.fst hp)
        simp [List.filter_cons, hrest]
      · rcases ih h.2 with ⟨h1, h2⟩ | ⟨j, h1, h2⟩
        · left
          constructor
          · simp [List.filter_cons, haU, h1]
          · rw [List.lookup_cons]
            simpa [beq_false_of_ne (Ne.symm haU)] using h2
        · right
          refine ⟨j, ?_, ?_⟩
          · simp [List.filter_cons, haU, h1]
          · rw [List.lookup_cons]
            simpa [beq_false_of_ne (Ne.symm haU)] using h2

theorem userDurs_finish (U : Nat) (m : List (Nat × Int)) (e : Int) :
    userDurs U (finish m e) = finish (m.filter (fun p => p.1 = U)) e := by
  induction m with
  | nil => rfl
  | cons p rest ih =>
      obtain ⟨a, b⟩ := p
      by_cases hc : e - b > 43200 <;> by_cases haU : a = U <;>
        simp [userDurs, finish, List.filterMap_cons, List.filter_cons, hc, haU] <;>
        simpa [userDurs, finish] using ih

theorem mem_insertSeen (k x : Nat) (seen : List Nat) :
    x ∈ insertSeen k seen ↔ x = k ∨ x ∈ seen := by
  rw [insertSeen]
  by_cases h : k ∈ seen
  · rw [if_pos h]
    constructor
    · exact Or.inr
    · rintro (rfl | hx)
      · exact h
      · exact hx
  · rw [if_neg h]
    simp

theorem process_events_eq (evts : List StalkEvent) (s e : Int) :
    process_events evts s e =
      (evts.foldl (step s) ([], [], [])).2.1 ++
        finish (evts.foldl (step s) ([], [], [])).1 e := by
  rw [process_events]

/-- Scan invariant of `process_events` for a fixed user `U`: along the fold,
the keys of `looking_at` stay distinct, the intervals already emitted for `U`
form a chain (each ends no later than the next starts and no later than the
last processed timestamp), and an open join of `U` starts no earlier than
every emitted interval's end. -/
theorem scan_keeps_user_chain (U : Nat) (s e : Int) :
    ∀ (evts : List StalkEvent) (m : List (Nat × Int)) (ds : List ConnectedDuration)
      (seen : List Nat) (t : Int),
      List.Pairwise (fun a b => a.when ≤ b.when) evts →
      (∀ ev ∈ evts, t ≤ ev.when ∧ ev.when ≤ e) →
      t ≤ e →
      keysNodup m →
      List.Pairwise (fun a b => a.left ≤ b.joined) (userDurs U ds) →
      (∀ d ∈ userDurs U ds, d.left ≤ t) →
      (∀ j, m.lookup U = some j → (∀ d ∈ userDurs U ds, d.left ≤ j) ∧ j ≤ t) →
      (U ∉ seen → userDurs U ds = [] ∧ m.lookup U = none) →
      keysNodup (evts.foldl (step s) (m, ds, seen)).1 ∧
      List.Pairwise (fun a b => a.left ≤ b.joined)
        (userDurs U (evts.foldl (step s) (m, ds, seen)).2.1) ∧
      (∀ j, (evts.foldl (step s) (m, ds, seen)).1.lookup U = some j →
        (∀ d ∈ userDurs U (evts.foldl (step s) (m, ds, seen)).2.1, d.left ≤ j) ∧
          j ≤ e) := by
  intro evts
  induction evts with
  | nil =>
      intro m ds seen t _ _ hte hk hch hlt hlk _
      simp only [List.foldl_nil]
      exact ⟨hk, hch, fun j hj => ⟨(hlk j hj).1, le_trans (hlk j hj).2 hte⟩⟩
  | cons ev rest ih =>
      intro m ds seen t hsort hwin hte hk hch hlt hlk hns
      rw [List.foldl_cons]
      obtain ⟨hts, hes⟩ := hwin ev (List.mem_cons_self ev rest)
      have hsorthd := (List.pairwise_cons.mp hsort).1
      have hsort' := (List.pairwise_cons.mp hsort).2
      have hwin' : ∀ x ∈ rest, ev.when ≤ x.when ∧ x.when ≤ e :=
        fun x hx => ⟨hsorthd x hx, (hwin x (List.mem_cons_of_mem ev hx)).2⟩
      cases hact : ev.action with
      | join =>
          simp only [step, hact]
          refine ih (dictInsert m ev.who ev.when) ds (insertSeen ev.who seen) ev.when
            hsort' hwin' hes (keysNodup_dictInsert m ev.who ev.when hk) hch
            (fun d hd => le_trans (hlt d hd) hts) ?_ ?_
          · intro j hj
            by_cases hwho : ev.who = U
            · rw [hwho, lookup_dictInsert_self] at hj
              obtain rfl : ev.when = j := Option.some.injEq .. ▸ hj
              exact ⟨fun d hd => le_trans (hlt d hd) hts, le_refl _⟩
            · rw [lookup_dictInsert_ne m ev.who U ev.when (fun hh => hwho hh.symm)] at hj
              exact ⟨(hlk j hj).1, le_trans (hlk j hj).2 hts⟩
          · intro hU
            have hU2 : ¬(U = ev.who) ∧ U ∉ seen := by
              have := (mem_insertSeen ev.who U seen).mpr
              tauto
            obtain ⟨hds, hlkn⟩ := hns hU2.2
            refine ⟨hds, ?_⟩
            rw [lookup_dictInsert_ne m ev.who U ev.when hU2.1]
            exact hlkn
      | leave =>
          cases hl : m.lookup ev.who with
          | some j0 =>
              simp only [step, hact, hl]
              refine ih (dictRemove m ev.who)
                (ds ++ [⟨ev.who, j0, ev.when⟩]) (insertSeen ev.who seen) ev.when
                hsort' hwin' hes (keysNodup_dictRemove m ev.who hk) ?_ ?_ ?_ ?_
              · by_cases hwho : ev.who = U
                · subst hwho
                  rw [userDurs, List.filter_append, ← userDurs]
                  rw [List.pairwise_append]
                  refine ⟨hch, by simp [userDurs], ?_⟩
                  intro a ha b hb
                  simp [userDurs, List.filter_cons] at hb
                  subst hb
                  exact (hlk j0 hl).1 a ha
                · have : userDurs U (ds ++ [⟨ev.who, j0, ev.when⟩]) = userDurs U ds := by
                    simp [userDurs, List.filter_append, List.filter_cons, hwho]
                  rw [this]
                  exact hch
              · intro d hd
                rw [userDurs, List.filter_append, ← userDurs] at hd
                rcases List.mem_append.mp hd with hd1 | hd2
                · exact le_trans (hlt d hd1) hts
                · obtain ⟨hd2m, -⟩ := List.mem_filter.mp hd2
                  rw [List.mem_singleton] at hd2m
                  rw [hd2m]
              · intro j hj
                by_cases hwho : ev.who = U
                · rw [hwho, lookup_dictRemove_self] at hj
                  cases hj
                · rw [lookup_dictRemove_ne m ev.who U (fun hh => hwho hh.symm)] at hj
                  have hud : userDurs U (ds ++ [⟨ev.who, j0, ev.when⟩]) = userDurs U ds := by
                    simp [userDurs, List.filter_append, List.filter_cons, hwho]
                  rw [hud]
                  exact ⟨(hlk j hj).1, le_trans (hlk j hj).2 hts⟩
              · intro hU
                have hU2 : ¬(U = ev.who) ∧ U ∉ seen := by
                  have := (mem_insertSeen ev.who U seen).mpr
                  tauto
                obtain ⟨hds, hlkn⟩ := hns hU2.2
                have hwho2 : ¬(ev.who = U) := fun hh => hU2.1 hh.symm
                have hud : userDurs U (ds ++ [⟨ev.who, j0, ev.when⟩]) = userDurs U ds := by
                  simp [userDurs, List.filter_append, List.filter_cons, hwho2]
                rw [hud, lookup_dictRemove_ne m ev.who U hU2.1]
                exact ⟨hds, hlkn⟩
          | none =>
              by_cases hseen : ev.who ∈ seen
              · simp only [step, hact, hl, if_pos hseen]
                refine ih m ds (insertSeen ev.who seen) ev.when hsort' hwin' hes hk hch
                  (fun d hd => le_trans (hlt d hd) hts)
                  (fun j hj => ⟨(hlk j hj).1, le_trans (hlk j hj).2 hts⟩) ?_
                intro hU
                have hU2 : U ∉ seen := by
                  have := (mem_insertSeen ev.who U seen).mpr
                  tauto
                exact hns hU2
              · simp only [step, hact, hl, if_neg hseen]
                refine ih m (ds ++ [⟨ev.who, s, ev.when⟩]) (insertSeen ev.who seen) ev.when
                  hsort' hwin' hes hk ?_ ?_ ?_ ?_
                · by_cases hwho : ev.who = U
                  · subst hwho
                    obtain ⟨hds, -⟩ := hns hseen
                    rw [userDurs, List.filter_append, ← userDurs, hds]
                    simp [userDurs, List.filter_cons]
                  · have : userDurs U (ds ++ [⟨ev.who, s, ev.when⟩]) = userDurs U ds := by
                      simp [userDurs, List.filter_append, List.filter_cons, hwho]
                    rw [this]
                    exact hch
                · intro d hd
                  rw [userDurs, List.filter_append, ← userDurs] at hd
                  rcases List.mem_append.mp hd with hd1 | hd2
                  · exact le_trans (hlt d hd1) hts
                  · obtain ⟨hd2m, -⟩ := List.mem_filter.mp hd2
                    rw [List.mem_singleton] at hd2m
                    rw [hd2m]
                · intro j hj
                  by_cases hwho : ev.who = U
                  · subst hwho
                    obtain ⟨-, hlkn⟩ := hns hseen
                    rw [hlkn] at hj
                    cases hj
                  · have hud : userDurs U (ds ++ [⟨ev.who, s, ev.when⟩]) = userDurs U ds := by
                      simp [userDurs, List.filter_append, List.filter_cons, hwho]
                    rw [hud]
                    exact ⟨(hlk j hj).1, le_trans (hlk j hj).2 hts⟩
                · intro hU
                  have hU2 : ¬(U = ev.who) ∧ U ∉ seen := by
                    have := (mem_insertSeen ev.who U seen).mpr
                    tauto
                  obtain ⟨hds, hlkn⟩ := hns hU2.2
                  have hwho2 : ¬(ev.who = U) := fun hh => hU2.1 hh.symm
                  have hud : userDurs U (ds ++ [⟨ev.who, s, ev.when⟩]) = userDurs U ds := by
                    simp [userDurs, List.filter_append, List.filter_cons, hwho2]
                  rw [hud]
                  exact ⟨hds, hlkn⟩

/-- C2: for every event sequence in non-decreasing timestamp order whose
event times all lie inside the window `[s, e]`, and every user `U`, the
intervals `process_events` emits for `U` are pairwise non-overlapping. -/
theorem intervals_never_overlap (evts : List StalkEvent) (s e : Int) (U : Nat)
    (hsort : List.Pairwise (fun a b => a.when ≤ b.when) evts)
    (hwin : ∀ ev ∈ evts, s ≤ ev.when ∧ ev.when ≤ e)
    (hse : s ≤ e) :
    List.Pairwise NoOverlap (userDurs U (process_events evts s e)) := by
  obtain ⟨hk, hch, hlk⟩ :=
    scan_keeps_user_chain U s e evts [] [] [] s hsort hwin hse
      (by simp [keysNodup]) (by simp [userDurs]) (by simp [userDurs])
      (by simp) (by simp [userDurs])
  rw [process_events_eq, userDurs, List.filter_append, ← userDurs, ← userDurs,
    userDurs_finish]
  rcases filter_key_of_keysNodup _ U hk with ⟨h1, -⟩ | ⟨j, h1, h2⟩
  · rw [h1]
    simp only [finish, List.filterMap_nil, List.append_nil]
    exact hch.imp Or.inl
  · rw [h1]
    by_cases hc : e - j > 43200
    · simp only [finish, List.filterMap_cons, if_pos hc, List.filterMap_nil,
        List.append_nil]
      exact hch.imp Or.inl
    · simp only [finish, List.filterMap_cons, if_neg hc, List.filterMap_nil]
      rw [List.pairwise_append]
      refine ⟨hch.imp Or.inl, by simp, ?_⟩
      intro a ha b hb
      simp only [List.mem_singleton] at hb
      subst hb
      exact Or.inl ((hlk j h2).1 a ha)

/-- Witness for `intervals_never_overlap`. -/
theorem intervals_never_overlap_witness :
    List.Pairwise NoOverlap
      (userDurs 1 (process_events [⟨1, 1, StalkType.leave⟩] 0 10)) :=
  intervals_never_overlap [⟨1, 1, StalkType.leave⟩] 0 10 1 (by simp)
    (by
      intro ev hev
      simp only [List.mem_singleton] at hev
      subst hev
      exact ⟨by decide, by decide⟩)
    (by decide)

/-! Commutation machinery: `step` decomposed into its effect on `looking_at`
(`stepLooking`), on `durations` (`stepEmit`) and on `seen`. -/

theorem step_decompose (s : Int) (m : List (Nat × Int)) (ds : List ConnectedDuration)
    (seen : List Nat) (ev : StalkEvent) :
    step s (m, ds, seen) ev =
      (stepLooking ev m, ds ++ stepEmit s ev m seen, insertSeen ev.who seen) := by
  cases hact : ev.action with
  | join => simp [step, stepLooking, stepEmit, hact]
  | leave =>
      cases hl : m.lookup ev.who with
      | some j => simp [step, stepLooking, stepEmit, hact, hl]
      | none =>
          by_cases hs : ev.who ∈ seen <;>
            simp [step, stepLooking, stepEmit, hact, hl, hs]

theorem dictRemove_dictRemove (m : List (Nat × Int)) (k k' : Nat) :
    dictRemove (dictRemove m k) k' = dictRemove (dictRemove m k') k := by
  rw [dictRemove, dictRemove, dictRemove, dictRemove, List.filter_filter,
    List.filter_filter]
  congr 1
  funext p
  rw [Bool.and_comm]

theorem dictRemove_dictInsert (m : List (Nat × Int)) (k k' : Nat) (v : Int)
    (h : k' ≠ k) :
    dictRemove (dictInsert m k v) k' = dictInsert (dictRemove m k') k v := by
  induction m with
  | nil => simp [dictInsert, dictRemove, List.filter_cons, Ne.symm h]
  | cons p rest ih =>
      obtain ⟨a, b⟩ := p
      by_cases hak : a = k
      · subst hak
        simp [dictInsert, dictRemove, List.filter_cons, Ne.symm h]
      · by_cases hak' : a = k'
        · subst hak'
          have e1 : dictInsert ((a, b) :: rest) k v = (a, b) :: dictInsert rest k v := by
            simp [dictInsert, hak]
          have e2 : dictRemove ((a, b) :: dictInsert rest k v) a =
              dictRemove (dictInsert rest k v) a := by
            simp [dictRemove, List.filter_cons]
          have e3 : dictRemove ((a, b) :: rest) a = dictRemove rest a := by
            simp [dictRemove, List.filter_cons]
          rw [e1, e2, e3, ih]
        · have e1 : dictInsert ((a, b) :: rest) k v = (a, b) :: dictInsert rest k v := by
            simp [dictInsert, hak]
          have e2 : dictRemove ((a, b) :: dictInsert rest k v) k' =
              (a, b) :: dictRemove (dictInsert rest k v) k' := by
            simp [dictRemove, List.filter_cons, hak']
          have e3 : dictRemove ((a, b) :: rest) k' = (a, b) :: dictRemove rest k' := by
            simp [dictRemove, List.filter_cons, hak']
          have e4 : dictInsert ((a, b) :: dictRemove rest k') k v =
              (a, b) :: dictInsert (dictRemove rest k') k v := by
            simp [dictInsert, hak]
          rw [e1, e2, e3, e4, ih]

theorem dictRemove_eq_of_not_mem_keys (m : List (Nat × Int)) (k : Nat)
    (h : k ∉ m.map Prod.fst) : dictRemove m k = m := by
  induction m with
  | nil => rfl
  | cons p rest ih =>
      simp only [List.map_cons, List.mem_cons] at h
      push_neg at h
      rw [dictRemove, List.filter_cons, if_pos (by simp [Ne.symm h.1])]
      have hrest : List.filter (fun p => decide (p.1 ≠ k)) rest = rest := ih h.2
      rw [hrest]

theorem dictInsert_perm_cons_remove (m : List (Nat × Int)) (k : Nat) (v : Int)
    (hk : keysNodup m) : (dictInsert m k v).Perm ((k, v) :: dictRemove m k) := by
  induction m with
  | nil => simp [dictInsert, dictRemove]
  | cons p rest ih =>
      obtain ⟨a, b⟩ := p
      rw [keysNodup, List.map_cons, List.nodup_cons] at hk
      by_cases hak : a = k
      · subst hak
        have h2 : dictRemove ((a, b) :: rest) a = rest := by
          rw [dictRemove, List.filter_cons, if_neg (by simp)]
          exact dictRemove_eq_of_not_mem_keys rest a hk.1
        rw [h2]
        simp [dictInsert]
      · have h2 : dictRemove ((a, b) :: rest) k = (a, b) :: dictRemove rest k := by
          simp [dictRemove, List.filter_cons, hak]
        have h1 : dictInsert ((a, b) :: rest) k v = (a, b) :: dictInsert rest k v := by
          simp [dictInsert, hak]
        rw [h1, h2]
        exact ((ih hk.2).cons (a, b)).trans (List.Perm.swap (k, v) (a, b) _)

theorem dictInsert_dictInsert_perm (m : List (Nat × Int)) (a b : Nat) (va vb : Int)
    (h : a ≠ b) (hk : keysNodup m) :
    (dictInsert (dictInsert m a va) b vb).Perm (dictInsert (dictInsert m b vb) a va) := by
  have hka := keysNodup_dictInsert m a va hk
  have hkb := keysNodup_dictInsert m b vb hk
  refine ((dictInsert_perm_cons_remove _ b vb hka).trans ?_).trans
    (dictInsert_perm_cons_remove _ a va hkb).symm
  rw [dictRemove_dictInsert m a b va (Ne.symm h), dictRemove_dictInsert m b a vb h]
  refine (List.Perm.cons _ (dictInsert_perm_cons_remove _ a va
    (keysNodup_dictRemove m b hk))).trans ?_
  refine (List.Perm.swap _ _ _).trans ?_
  rw [dictRemove_dictRemove]
  exact List.Perm.cons _ (dictInsert_perm_cons_remove _ b vb
    (keysNodup_dictRemove m a hk)).symm

theorem lookup_eq_of_perm (m m' : List (Nat × Int)) (hk : keysNodup m)
    (hp : m.Perm m') (k : Nat) : m.lookup k = m'.lookup k := by
  have hk' : keysNodup m' := (hp.map Prod.fst).nodup hk
  cases hc : m.lookup k with
  | none =>
      symm
      rw [List.lookup_eq_none_iff] at hc ⊢
      intro p hp2
      exact hc p (hp.mem_iff.mpr hp2)
  | some v =>
      obtain ⟨l₁, l₂, heq, -⟩ := List.lookup_eq_some_iff.mp hc
      have hmem : (k, v) ∈ m' := hp.mem_iff.mp (by rw [heq]; simp)
      exact (lookup_of_mem_of_keysNodup m' hk' k v hmem).symm

theorem keysNodup_stepLooking (ev : StalkEvent) (m : List (Nat × Int))
    (hk : keysNodup m) : keysNodup (stepLooking ev m) := by
  cases hact : ev.action with
  | join =>
      simp only [stepLooking, hact]
      exact keysNodup_dictInsert m ev.who ev.when hk
  | leave =>
      simp only [stepLooking, hact]
      cases hl : m.lookup ev.who with
      | none => simpa only [hl] using hk
      | some j =>
          simp only [hl]
          exact keysNodup_dictRemove m ev.who hk

theorem lookup_stepLooking_ne (ev : StalkEvent) (m : List (Nat × Int)) (k : Nat)
    (h : k ≠ ev.who) : (stepLooking ev m).lookup k = m.lookup k := by
  cases hact : ev.action with
  | join =>
      simp only [stepLooking, hact]
      exact lookup_dictInsert_ne m ev.who k ev.when h
  | leave =>
      simp only [stepLooking, hact]
      cases hl : m.lookup ev.who with
      | none => simp only [hl]
      | some j =>
          simp only [hl]
          exact lookup_dictRemove_ne m ev.who k h

theorem stepLooking_perm (ev : StalkEvent) (m m' : List (Nat × Int))
    (hk : keysNodup m) (hp : m.Perm m') :
    (stepLooking ev m).Perm (stepLooking ev m') := by
  have hl := lookup_eq_of_perm m m' hk hp ev.who
  cases hact : ev.action with
  | join =>
      simp only [stepLooking, hact]
      have hk' : keysNodup m' := (hp.map Prod.fst).nodup hk
      refine (dictInsert_perm_cons_remove m ev.who ev.when hk).trans
        (List.Perm.trans ?_ (dictInsert_perm_cons_remove m' ev.who ev.when hk').symm)
      rw [dictRemove, dictRemove]
      exact List.Perm.cons _ (hp.filter _)
  | leave =>
      simp only [stepLooking, hact]
      cases hl2 : m'.lookup ev.who with
      | none =>
          simp only [hl.trans hl2, hl2]
          exact hp
      | some j =>
          simp only [hl.trans hl2, hl2]
          rw [dictRemove, dictRemove]
          exact hp.filter _

theorem stepEmit_congr (s : Int) (ev : StalkEvent) (m m' : List (Nat × Int))
    (seen seen' : List Nat) (hk : keysNodup m) (hp : m.Perm m')
    (hseen : ∀ x, x ∈ seen ↔ x ∈ seen') :
    stepEmit s ev m seen = stepEmit s ev m' seen' := by
  have hl := lookup_eq_of_perm m m' hk hp ev.who
  cases hact : ev.action with
  | join => simp [stepEmit, hact]
  | leave =>
      cases hl2 : m'.lookup ev.who with
      | none =>
          by_cases hs : ev.who ∈ seen
          · simp [stepEmit, hact, hl.trans hl2, hl2, hs, (hseen ev.who).mp hs]
          · have hs' : ev.who ∉ seen' := fun hx => hs ((hseen ev.who).mpr hx)
            simp [stepEmit, hact, hl.trans hl2, hl2, hs, hs']
      | some j => simp [stepEmit, hact, hl.trans hl2, hl2]

theorem stepEmit_stepLooking_ne (s : Int) (a b : StalkEvent) (m : List (Nat × Int))
    (seen : List Nat) (h : b.who ≠ a.who) :
    stepEmit s b (stepLooking a m) (insertSeen a.who seen) = stepEmit s b m seen := by
  have hl := lookup_stepLooking_ne a m b.who h
  cases hact : b.action with
  | join => simp [stepEmit, hact]
  | leave =>
      cases hl2 : m.lookup b.who with
      | some j => simp [stepEmit, hact, hl.trans hl2, hl2]
      | none =>
          have hmem : (b.who ∈ insertSeen a.who seen) ↔ b.who ∈ seen := by
            rw [mem_insertSeen]
            constructor
            · rintro (hh | hh)
              · exact absurd hh h
              · exact hh
            · exact Or.inr
          by_cases hs : b.who ∈ seen
          · simp [stepEmit, hact, hl.trans hl2, hl2, hs, hmem.mpr hs]
          · have hs' : b.who ∉ insertSeen a.who seen := fun hx => hs (hmem.mp hx)
            simp [stepEmit, hact, hl.trans hl2, hl2, hs, hs']

theorem stepLooking_comm (a b : StalkEvent) (m : List (Nat × Int))
    (hk : keysNodup m) (h : a.who ≠ b.who) :
    (stepLooking b (stepLooking a m)).Perm (stepLooking a (stepLooking b m)) := by
  have hla := lookup_stepLooking_ne b m a.who h
  have hlb := lookup_stepLooking_ne a m b.who (Ne.symm h)
  cases hacta : a.action with
  | join =>
      cases hactb : b.action with
      | join =>
          simp only [stepLooking, hacta, hactb]
          exact dictInsert_dictInsert_perm m a.who b.who a.when b.when h hk
      | leave =>
          simp only [stepLooking, hacta, hactb] at hlb ⊢
          cases hl2 : m.lookup b.who with
          | none =>
              simp only [hlb.trans hl2, hl2]
              exact List.Perm.refl _
          | some j =>
              simp only [hlb.trans hl2, hl2]
              rw [dictRemove_dictInsert m a.who b.who a.when (Ne.symm h)]
  | leave =>
      cases hactb : b.action with
      | join =>
          simp only [stepLooking, hacta, hactb] at hla ⊢
          cases hl1 : m.lookup a.who with
          | none =>
              simp only [hla.trans hl1, hl1]
              exact List.Perm.refl _
          | some j =>
              simp only [hla.trans hl1, hl1]
              rw [dictRemove_dictInsert m b.who a.who b.when h]
      | leave =>
          simp only [stepLooking, hacta, hactb]
          have hra := lookup_dictRemove_ne m b.who a.who h
          have hrb := lookup_dictRemove_ne m a.who b.who (Ne.symm h)
          cases hl1 : m.lookup a.who with
          | none =>
              cases hl2 : m.lookup b.who with
              | none =>
                  simp only [hl1, hl2]
                  exact List.Perm.refl _
              | some j2 =>
                  simp only [hl1, hl2, hra]
                  exact List.Perm.refl _
          | some j1 =>
              cases hl2 : m.lookup b.who with
              | none =>
                  simp only [hl1, hl2, hrb]
                  exact List.Perm.refl _
              | some j2 =>
                  simp only [hl1, hl2, hra, hrb]
                  rw [dictRemove_dictRemove]

theorem keysNodup_step (s : Int) (st : ScanState) (ev : StalkEvent)
    (hk : keysNodup st.1) : keysNodup (step s st ev).1 := by
  obtain ⟨m, ds, seen⟩ := st
  rw [step_decompose]
  exact keysNodup_stepLooking ev m hk

theorem keysNodup_foldl (s : Int) (evts : List StalkEvent) :
    ∀ st : ScanState, keysNodup st.1 → keysNodup (evts.foldl (step s) st).1 := by
  induction evts with
  | nil =>
      intro st h
      simpa using h
  | cons ev rest ih =>
      intro st h
      rw [List.foldl_cons]
      exact ih _ (keysNodup_step s st ev h)

theorem step_congr (s : Int) (ev : StalkEvent) (st st' : ScanState)
    (hk : keysNodup st.1) (h : StEquiv st st') :
    StEquiv (step s st ev) (step s st' ev) := by
  obtain ⟨m, ds, seen⟩ := st
  obtain ⟨m', ds', seen'⟩ := st'
  obtain ⟨h1, h2, h3⟩ := h
  rw [step_decompose, step_decompose]
  refine ⟨stepLooking_perm ev m m' hk h1, ?_, ?_⟩
  · rw [stepEmit_congr s ev m m' seen seen' hk h1 h3]
    exact h2.append (List.Perm.refl _)
  · intro x
    simp only [mem_insertSeen]
    constructor
    · rintro (rfl | hx)
      · exact Or.inl rfl
      · exact Or.inr ((h3 x).mp hx)
    · rintro (rfl | hx)
      · exact Or.inl rfl
      · exact Or.inr ((h3 x).mpr hx)

theorem foldl_step_congr (s : Int) (evts : List StalkEvent) :
    ∀ st st' : ScanState, keysNodup st.1 → StEquiv st st' →
      StEquiv (evts.foldl (step s) st) (evts.foldl (step s) st') := by
  induction evts with
  | nil =>
      intro st st' _ h
      simpa using h
  | cons ev rest ih =>
      intro st st' hk h
      rw [List.foldl_cons, List.foldl_cons]
      exact ih _ _ (keysNodup_step s st ev hk) (step_congr s ev st st' hk h)

/-- Swapping two adjacent events of distinct users changes the scan state only
up to `StEquiv`. -/
theorem step_swap (s : Int) (st : ScanState) (a b : StalkEvent)
    (hk : keysNodup st.1) (h : a.who ≠ b.who) :
    StEquiv (step s (step s st a) b) (step s (step s st b) a) := by
  obtain ⟨m, ds, seen⟩ := st
  rw [step_decompose, step_decompose, step_decompose, step_decompose]
  refine ⟨stepLooking_comm a b m hk h, ?_, ?_⟩
  · rw [stepEmit_stepLooking_ne s a b m seen (Ne.symm h),
      stepEmit_stepLooking_ne s b a m seen h]
    rw [List.append_assoc, List.append_assoc]
    exact List.Perm.append_left ds List.perm_append_comm
  · intro x
    simp only [mem_insertSeen]
    tauto

/-- C3: swapping two adjacent events that belong to two distinct users never
changes the multiset of intervals `process_events` returns — reconstruction
is order-independent across distinct users. -/
theorem process_events_swap_adjacent (xs ys : List StalkEvent) (a b : StalkEvent)
    (s e : Int) (h : a.who ≠ b.who) :
    (process_events (xs ++ a :: b :: ys) s e).Perm
      (process_events (xs ++ b :: a :: ys) s e) := by
  rw [process_events_eq, process_events_eq, List.foldl_append, List.foldl_append]
  have hk0 : keysNodup (xs.foldl (step s) ([], [], [])).1 :=
    keysNodup_foldl s xs ([], [], []) (by simp [keysNodup])
  have hsw : StEquiv
      (List.foldl (step s) (xs.foldl (step s) ([], [], [])) (a :: b :: ys))
      (List.foldl (step s) (xs.foldl (step s) ([], [], [])) (b :: a :: ys)) := by
    rw [List.foldl_cons, List.foldl_cons, List.foldl_cons, List.foldl_cons]
    exact foldl_step_congr s ys _ _
      (keysNodup_step s _ b (keysNodup_step s _ a hk0))
      (step_swap s _ a b hk0 h)
  obtain ⟨p1, p2, -⟩ := hsw
  refine List.Perm.append p2 ?_
  rw [finish, finish]
  exact p1.filterMap _

/-- Witness for `process_events_swap_adjacent`. -/
theorem process_events_swap_adjacent_witness :
    (process_events [⟨1, 1, StalkType.join⟩, ⟨2, 2, StalkType.join⟩] 0 10).Perm
      (process_events [⟨2, 2, StalkType.join⟩, ⟨1, 1, StalkType.join⟩] 0 10) :=
  process_events_swap_adjacent [] [] ⟨1, 1, StalkType.join⟩ ⟨2, 2, StalkType.join⟩
    0 10 (by decide)

end DpyVoiceStalker
